import Mathlib

/-!
Verification of the diffusion orchestration engine in `src/diffusion.py`
(class `DiffusionFramework`).

The embedding is shallow: images are functions from an abstract position
type to rationals, the boolean mask enters the arithmetic as 0/1 exactly as
the source multiplies a boolean tensor, external numeric capabilities (the
model's `refinement_step`, `torch.sqrt`, the evaluation metrics) are
parameters, and the random draws (`torch.randn_like`, the per-batch losses
produced by `train_one_batch`) are inputs. Side effects (log lines, scalar
telemetry, weight saves, the scheduler step) are reified as event lists.
-/

namespace Palette

variable {Pos : Type}

/-- Mask blending `x * mask + cond * (1 - mask)` from `infer_one_batch`
(src/diffusion.py lines 160 and 171): the boolean mask participates in the
arithmetic as 0/1. -/
def blend (mask : Pos → Bool) (x cond : Pos → ℚ) : Pos → ℚ :=
  fun p => x p * (if mask p then 1 else 0) + cond p * (1 - (if mask p then 1 else 0))

/-- Loop body of `infer_one_batch` (src/diffusion.py lines 163-171),
instrumented to also return the schedule indices `t` consumed (one per
`refinement_step` invocation, in call order) and the working image after
each iteration. `model` is the abstract `refinement_step` capability;
`alphas` and `gammas` are the inference noise schedule's coefficient
arrays; `is` is the list of loop counters `i` from `range(T)`, and each
iteration uses `t = T - (i + 1)`. -/
def infer_aux (model : (Pos → ℚ) → (Pos → ℚ) → ℚ → ℚ → (Pos → ℚ))
    (alphas gammas : ℕ → ℚ) (cond : Pos → ℚ) (mask : Pos → Bool) (T : ℕ) :
    List ℕ → (Pos → ℚ) → ((Pos → ℚ) × List ℕ × List (Pos → ℚ))
  | [], img => (img, [], [])
  | i :: rest, img =>
      let t := T - (i + 1)
      let img2 := blend mask (model img cond (alphas t) (gammas t)) cond
      let r := infer_aux model alphas gammas cond mask T rest img2
      (r.1, t :: r.2.1, img2 :: r.2.2)

/-- The sampling algorithm `infer_one_batch` (src/diffusion.py lines
158-172): initialize the working image as noise inside the mask and the
conditioning image outside, then run the refinement loop over
`i in range(T)` with `t = T - (i + 1)`, re-blending after every model
call. `noise` stands for the `torch.randn_like(cond_image)` draw. -/
def infer_one_batch (model : (Pos → ℚ) → (Pos → ℚ) → ℚ → ℚ → (Pos → ℚ))
    (alphas gammas : ℕ → ℚ) (cond : Pos → ℚ) (mask : Pos → Bool)
    (noise : Pos → ℚ) (T : ℕ) : Pos → ℚ :=
  (infer_aux model alphas gammas cond mask T (List.range T) (blend mask noise cond)).1

/-- The schedule indices consumed by the loop of `infer_one_batch`, in the
order of the `refinement_step` invocations. -/
def inferConsumed (model : (Pos → ℚ) → (Pos → ℚ) → ℚ → ℚ → (Pos → ℚ))
    (alphas gammas : ℕ → ℚ) (cond : Pos → ℚ) (mask : Pos → Bool)
    (noise : Pos → ℚ) (T : ℕ) : List ℕ :=
  (infer_aux model alphas gammas cond mask T (List.range T) (blend mask noise cond)).2.1

/-- The working image at every iteration boundary of `infer_one_batch`:
the initialized image followed by the image after each refinement
iteration. -/
def inferImages (model : (Pos → ℚ) → (Pos → ℚ) → ℚ → ℚ → (Pos → ℚ))
    (alphas gammas : ℕ → ℚ) (cond : Pos → ℚ) (mask : Pos → Bool)
    (noise : Pos → ℚ) (T : ℕ) : List (Pos → ℚ) :=
  blend mask noise cond ::
    (infer_aux model alphas gammas cond mask T (List.range T) (blend mask noise cond)).2.2

theorem blend_apply_false {mask : Pos → Bool} {x cond : Pos → ℚ} {p : Pos}
    (h : mask p = false) : blend mask x cond p = cond p := by
  simp [blend, h]

theorem infer_aux_mask_false (model : (Pos → ℚ) → (Pos → ℚ) → ℚ → ℚ → (Pos → ℚ))
    (alphas gammas : ℕ → ℚ) (cond : Pos → ℚ) (mask : Pos → Bool) (T : ℕ)
    {p : Pos} (h : mask p = false) :
    ∀ (is : List ℕ) (img : Pos → ℚ),
      (∀ q ∈ (infer_aux model alphas gammas cond mask T is img).2.2, q p = cond p)
      ∧ (img p = cond p → (infer_aux model alphas gammas cond mask T is img).1 p = cond p) := by
  intro is
  induction is with
  | nil => intro img; exact ⟨by simp [infer_aux], fun h2 => by simpa [infer_aux] using h2⟩
  | cons i rest ih =>
      intro img
      have hblend : blend mask
          (model img cond (alphas (T - (i + 1))) (gammas (T - (i + 1)))) cond p = cond p :=
        blend_apply_false h
      refine ⟨?_, ?_⟩
      · intro q hq
        simp only [infer_aux, List.mem_cons] at hq
        rcases hq with hq | hq
        · rw [hq]; exact hblend
        · exact (ih _).1 q hq
      · intro _
        simpa [infer_aux] using (ih _).2 hblend

theorem infer_aux_trace (model : (Pos → ℚ) → (Pos → ℚ) → ℚ → ℚ → (Pos → ℚ))
    (alphas gammas : ℕ → ℚ) (cond : Pos → ℚ) (mask : Pos → Bool) (T : ℕ) :
    ∀ (is : List ℕ) (img : Pos → ℚ),
      (infer_aux model alphas gammas cond mask T is img).2.1
        = is.map (fun i => T - (i + 1)) := by
  intro is
  induction is with
  | nil => intro img; simp [infer_aux]
  | cons i rest ih => intro img; simp [infer_aux, ih]

/-- C1: for every mask, conditioning image and model refinement capability,
`infer_one_batch` keeps every pixel at a position where the mask is false
equal to the conditioning image's pixel, both in the final output and at
the boundary of every intermediate refinement iteration, regardless of
what the model returns there. -/
theorem known_region_invariance (model : (Pos → ℚ) → (Pos → ℚ) → ℚ → ℚ → (Pos → ℚ))
    (alphas gammas : ℕ → ℚ) (cond : Pos → ℚ) (mask : Pos → Bool)
    (noise : Pos → ℚ) (T : ℕ) (p : Pos) (h : mask p = false) :
    (∀ q ∈ inferImages model alphas gammas cond mask noise T, q p = cond p)
    ∧ infer_one_batch model alphas gammas cond mask noise T p = cond p := by
  have hinit : blend mask noise cond p = cond p := blend_apply_false h
  have haux := infer_aux_mask_false model alphas gammas cond mask T h
      (List.range T) (blend mask noise cond)
  refine ⟨?_, haux.2 hinit⟩
  intro q hq
  simp only [inferImages, List.mem_cons] at hq
  rcases hq with hq | hq
  · rw [hq]; exact hinit
  · exact haux.1 q hq

def witModel : (ℕ → ℚ) → (ℕ → ℚ) → ℚ → ℚ → (ℕ → ℚ) :=
  fun img _ _ _ => fun p => img p + 1

def witCond : ℕ → ℚ := fun _ => 5

def witMaskOff : ℕ → Bool := fun _ => false

def witNoise : ℕ → ℚ := fun _ => 9

theorem known_region_invariance_witness :
    (∀ q ∈ inferImages witModel (fun _ => 1) (fun _ => 1) witCond witMaskOff witNoise 2,
        q 0 = witCond 0)
    ∧ infer_one_batch witModel (fun _ => 1) (fun _ => 1) witCond witMaskOff witNoise 2 0
        = witCond 0 :=
  known_region_invariance witModel (fun _ => 1) (fun _ => 1) witCond witMaskOff witNoise 2 0 rfl

/-- C3: for an inference schedule of length `T ≥ 1`, the sampling loop of
`infer_one_batch` invokes the `refinement_step` capability exactly `T`
times, consuming the schedule indices in strictly decreasing order from
`T - 1` down to `0`. -/
theorem schedule_consumption_order (model : (Pos → ℚ) → (Pos → ℚ) → ℚ → ℚ → (Pos → ℚ))
    (alphas gammas : ℕ → ℚ) (cond : Pos → ℚ) (mask : Pos → Bool)
    (noise : Pos → ℚ) (T : ℕ) (hT : 1 ≤ T) :
    inferConsumed model alphas gammas cond mask noise T = (List.range T).reverse
    ∧ (inferConsumed model alphas gammas cond mask noise T).length = T
    ∧ List.Sorted (· > ·) (inferConsumed model alphas gammas cond mask noise T)
    ∧ (inferConsumed model alphas gammas cond mask noise T).head? = some (T - 1)
    ∧ (inferConsumed model alphas gammas cond mask noise T).getLast? = some 0 := by
  have hrev : inferConsumed model alphas gammas cond mask noise T
      = (List.range T).reverse := by
    rw [inferConsumed,
      infer_aux_trace model alphas gammas cond mask T (List.range T) (blend mask noise cond)]
    rw [List.range_eq_range', List.reverse_range', ← List.range_eq_range']
    apply List.map_congr_left
    intro i _
    omega
  obtain ⟨k, rfl⟩ : ∃ k, T = k + 1 := ⟨T - 1, by omega⟩
  refine ⟨hrev, ?_, ?_, ?_, ?_⟩
  · rw [hrev]; simp
  · rw [hrev]
    exact (List.pairwise_reverse).2 (List.pairwise_lt_range (k + 1))
  · rw [hrev, List.head?_reverse, List.range_succ, List.getLast?_concat]
    rfl
  · rw [hrev, List.getLast?_reverse]
    rw [List.range_succ_eq_map]
    rfl

theorem schedule_consumption_order_witness :
    inferConsumed witModel (fun _ => 1) (fun _ => 1) witCond witMaskOff witNoise 3
      = (List.range 3).reverse
    ∧ (inferConsumed witModel (fun _ => 1) (fun _ => 1) witCond witMaskOff witNoise 3).length = 3
    ∧ List.Sorted (· > ·)
        (inferConsumed witModel (fun _ => 1) (fun _ => 1) witCond witMaskOff witNoise 3)
    ∧ (inferConsumed witModel (fun _ => 1) (fun _ => 1) witCond witMaskOff witNoise 3).head?
        = some 2
    ∧ (inferConsumed witModel (fun _ => 1) (fun _ => 1) witCond witMaskOff witNoise 3).getLast?
        = some 0 :=
  schedule_consumption_order witModel (fun _ => 1) (fun _ => 1) witCond witMaskOff witNoise 3
    (by norm_num)

/-- NaN-tolerant mean applied at src/diffusion.py line 142: models numpy's
`nanmean`, whose documented behavior is to average the non-NaN entries and
to return NaN when every entry is NaN. The value `none` stands for NaN. -/
def nanmean (xs : List (Option ℚ)) : Option ℚ :=
  let vs := xs.filterMap id
  if vs.length = 0 then none else some (vs.sum / (vs.length : ℚ))

/-- The epoch-end reduction of `evaluate_single_epoch` (src/diffusion.py
lines 140-143): map `nanmean` over each metric's accumulated per-sample
results. -/
def reduceMetricResults (acc : List (String × List (Option ℚ))) : List (String × Option ℚ) :=
  acc.map (fun kv => (kv.1, nanmean kv.2))

/-- C6: the evaluation-epoch reduction is NaN-tolerant: NaN entries are
excluded from the mean (the accumulator `[1, NaN, 3]` reduces to `2`, not
NaN), the mean of the non-NaN entries is returned whenever one exists, and
a metric's mean is itself NaN exactly when all of its results are NaN. -/
theorem nan_tolerant_aggregation :
    reduceMetricResults [("m", [some 1, none, some 3])] = [("m", some 2)]
    ∧ (∀ xs : List (Option ℚ), nanmean xs = none ↔ ∀ x ∈ xs, x = none)
    ∧ (∀ xs : List (Option ℚ), xs.filterMap id ≠ [] →
        nanmean xs = some ((xs.filterMap id).sum / ((xs.filterMap id).length : ℚ))) := by
  refine ⟨?_, ?_, ?_⟩
  · simp only [reduceMetricResults, nanmean, List.map_cons, List.map_nil]
    norm_num [List.filterMap_cons, id]
  · intro xs
    rw [nanmean]
    simp only [List.length_eq_zero]
    constructor
    · intro h
      by_cases hnil : xs.filterMap id = []
      · intro x hx
        have := (List.filterMap_eq_nil_iff).1 hnil x hx
        simpa using this
      · simp [hnil] at h
    · intro h
      have hnil : xs.filterMap id = [] := by
        apply (List.filterMap_eq_nil_iff).2
        intro a ha
        simpa using h a ha
      simp [hnil]
  · intro xs hne
    rw [nanmean]
    simp only [List.length_eq_zero]
    simp [hne]

/-- Forward corruption of `train_one_batch` (src/diffusion.py line 114):
`noisy_image = sqrt(gamma) * gt_image + sqrt(1 - gamma) * noise_field`.
The external primitive `torch.sqrt` is passed as the parameter `sqrt`. -/
def noisy_image (sqrt : ℚ → ℚ) (gamma : ℚ) (gt_image noise : Pos → ℚ) : Pos → ℚ :=
  fun p => sqrt gamma * gt_image p + sqrt (1 - gamma) * noise p

/-- C7: the corrupted image of the training-batch algorithm equals
`sqrt(gamma) * ground_truth + sqrt(1 - gamma) * noise` at every position,
and when `gamma = 1` (with the square-root primitive satisfying
`sqrt 1 = 1` and `sqrt 0 = 0`, as the exact square root does) the
corrupted image is the ground-truth image exactly: the noise term
vanishes. -/
theorem forward_corruption_law (sqrt : ℚ → ℚ) (gt_image noise : Pos → ℚ)
    (h1 : sqrt 1 = 1) (h0 : sqrt 0 = 0) :
    (∀ (gamma : ℚ) (p : Pos),
        noisy_image sqrt gamma gt_image noise p
          = sqrt gamma * gt_image p + sqrt (1 - gamma) * noise p)
    ∧ noisy_image sqrt 1 gt_image noise = gt_image := by
  refine ⟨fun gamma p => rfl, ?_⟩
  funext p
  simp [noisy_image, h1, h0]

theorem forward_corruption_law_witness :
    (∀ (gamma : ℚ) (p : ℕ),
        noisy_image id gamma witCond witNoise p
          = id gamma * witCond p + id (1 - gamma) * witNoise p)
    ∧ noisy_image id 1 witCond witNoise = witCond :=
  forward_corruption_law id witCond witNoise rfl rfl

/-- Observable emissions of `train_single_epoch`: the payload of the
`write_log_line` call at src/diffusion.py line 87 (epoch number, 1-based
batch index, mean loss) and of the `log_scalar` call at line 98 (global
index, mean loss). -/
inductive TrainEvent where
  | logLine (epoch i : ℕ) (meanLoss : ℚ)
  | scalar (idx : ℕ) (meanLoss : ℚ)
  deriving DecidableEq, Repr

/-- The loop of `train_single_epoch` (src/diffusion.py lines 74-100).
The per-batch losses returned by `train_one_batch` are given as the list
argument; `i` is the 1-based `enumerate` index, `running` the
`running_loss` accumulator, `meanLoss` the `mean_loss` variable with
`none` standing for not-yet-assigned, and `n` is
`len(self.training_dataloader)`. Returns the value of `mean_loss` at the
final `return` statement together with the emitted events. -/
def trainLoop (epoch logEvery n : ℕ) :
    ℕ → ℚ → Option ℚ → List ℚ → Option ℚ × List TrainEvent
  | _, _, meanLoss, [] => (meanLoss, [])
  | i, running, meanLoss, loss :: rest =>
      let running2 := running + loss
      if i % logEvery = 0 then
        let m := running2 / (logEvery : ℚ)
        let r := trainLoop epoch logEvery n (i + 1) 0 (some m) rest
        (r.1, TrainEvent.logLine epoch i m :: TrainEvent.scalar ((epoch - 1) * n + i) m :: r.2)
      else
        trainLoop epoch logEvery n (i + 1) running2 meanLoss rest

/-- The training-epoch driver `train_single_epoch` (src/diffusion.py lines
64-102): fold over the batch losses starting from index 1 with both loss
counters zeroed and `mean_loss` unassigned. A first component of `none`
means the final `return mean_loss` reads a variable that was never
assigned, which in the source raises an error instead of returning. -/
def train_single_epoch (epoch logEvery : ℕ) (losses : List ℚ) :
    Option ℚ × List TrainEvent :=
  trainLoop epoch logEvery losses.length 1 0 none losses

theorem trainLoop_cons_not_boundary (epoch logEvery n i : ℕ) (r : ℚ) (m : Option ℚ)
    (x : ℚ) (rest : List ℚ) (h : ¬ i % logEvery = 0) :
    trainLoop epoch logEvery n i r m (x :: rest)
      = trainLoop epoch logEvery n (i + 1) (r + x) m rest := by
  simp [trainLoop, h]

theorem trainLoop_no_boundary (epoch logEvery n : ℕ) :
    ∀ (c : List ℚ) (rest : List ℚ) (i : ℕ) (r : ℚ) (m : Option ℚ),
      (∀ j < c.length, (i + j) % logEvery ≠ 0) →
      trainLoop epoch logEvery n i r m (c ++ rest)
        = trainLoop epoch logEvery n (i + c.length) (r + c.sum) m rest := by
  intro c
  induction c with
  | nil => intro rest i r m _; simp
  | cons x c ih =>
      intro rest i r m h
      have h0 : ¬ i % logEvery = 0 := by
        have := h 0 (by simp)
        simpa using this
      have e1 : i + (x :: c).length = i + 1 + c.length := by
        simp only [List.length_cons]
        omega
      have e2 : r + (x :: c).sum = r + x + c.sum := by
        simp only [List.sum_cons]
        ring
      rw [List.cons_append,
        trainLoop_cons_not_boundary epoch logEvery n i r m x (c ++ rest) h0,
        ih rest (i + 1) (r + x) m (by
          intro j hj
          have hh := h (j + 1) (by simpa using Nat.succ_lt_succ hj)
          have harith : i + (j + 1) = i + 1 + j := by omega
          rwa [harith] at hh),
        e1, e2]

theorem trainLoop_boundary (epoch logEvery n i : ℕ) (r : ℚ) (m : Option ℚ)
    (x : ℚ) (rest : List ℚ) (h : i % logEvery = 0) :
    trainLoop epoch logEvery n i r m (x :: rest)
      = ((trainLoop epoch logEvery n (i + 1) 0 (some ((r + x) / (logEvery : ℚ))) rest).1,
          TrainEvent.logLine epoch i ((r + x) / (logEvery : ℚ))
            :: TrainEvent.scalar ((epoch - 1) * n + i) ((r + x) / (logEvery : ℚ))
            :: (trainLoop epoch logEvery n (i + 1) 0
                  (some ((r + x) / (logEvery : ℚ))) rest).2) := by
  simp [trainLoop, h]

theorem trainLoop_chunk (epoch logEvery n k : ℕ) (hL : 1 ≤ logEvery)
    (c : List ℚ) (hc : c.length = logEvery) (rest : List ℚ) (r : ℚ) (m : Option ℚ) :
    trainLoop epoch logEvery n (k * logEvery + 1) r m (c ++ rest)
      = ((trainLoop epoch logEvery n ((k + 1) * logEvery + 1) 0
            (some ((r + c.sum) / (logEvery : ℚ))) rest).1,
          TrainEvent.logLine epoch ((k + 1) * logEvery) ((r + c.sum) / (logEvery : ℚ))
            :: TrainEvent.scalar ((epoch - 1) * n + (k + 1) * logEvery)
                ((r + c.sum) / (logEvery : ℚ))
            :: (trainLoop epoch logEvery n ((k + 1) * logEvery + 1) 0
                  (some ((r + c.sum) / (logEvery : ℚ))) rest).2) := by
  obtain ⟨x, hx⟩ : ∃ x, c.drop (logEvery - 1) = [x] := by
    apply List.length_eq_one.1
    rw [List.length_drop, hc]
    omega
  have htake : (c.take (logEvery - 1)).length = logEvery - 1 := by
    rw [List.length_take, hc]
    omega
  have hsum : (c.take (logEvery - 1)).sum + x = c.sum := by
    conv_rhs => rw [← List.take_append_drop (logEvery - 1) c]
    rw [hx, List.sum_append]
    simp
  have hsplit : c ++ rest = c.take (logEvery - 1) ++ (x :: rest) := by
    conv_lhs => rw [← List.take_append_drop (logEvery - 1) c]
    rw [List.append_assoc, hx]
    rfl
  rw [hsplit]
  rw [trainLoop_no_boundary epoch logEvery n (c.take (logEvery - 1)) (x :: rest)
      (k * logEvery + 1) r m (by
    intro j hj
    rw [htake] at hj
    have harith : k * logEvery + 1 + j = 1 + j + k * logEvery := by ring
    rw [harith, Nat.add_mul_mod_self_right, Nat.mod_eq_of_lt (by omega)]
    omega)]
  rw [htake]
  have hidx : k * logEvery + 1 + (logEvery - 1) = (k + 1) * logEvery := by
    have h1 : k * logEvery + 1 + (logEvery - 1) = k * logEvery + logEvery := by omega
    rw [h1]
    ring
  rw [hidx]
  rw [trainLoop_boundary epoch logEvery n ((k + 1) * logEvery) _ m x rest
      (Nat.mul_mod_left (k + 1) logEvery)]
  have hval : r + (c.take (logEvery - 1)).sum + x = r + c.sum := by
    rw [← hsum]
    ring
  rw [hval]

theorem trainLoop_chunks (epoch logEvery n : ℕ) (hL : 1 ≤ logEvery)
    (tl : List ℚ) (htl : tl.length < logEvery) :
    ∀ (chunks : List (List ℚ)), (∀ c ∈ chunks, c.length = logEvery) →
      ∀ (k : ℕ) (m : Option ℚ),
        (trainLoop epoch logEvery n (k * logEvery + 1) 0 m (chunks.flatten ++ tl)).1
          = (match chunks.getLast? with
              | some c => some (c.sum / (logEvery : ℚ))
              | none => m) := by
  intro chunks
  induction chunks with
  | nil =>
      intro _ k m
      simp only [List.flatten_nil, List.nil_append, List.getLast?_nil]
      have h2 := trainLoop_no_boundary epoch logEvery n tl [] (k * logEvery + 1) 0 m (by
        intro j hj
        have harith : k * logEvery + 1 + j = 1 + j + k * logEvery := by ring
        rw [harith, Nat.add_mul_mod_self_right, Nat.mod_eq_of_lt (by omega)]
        omega)
      rw [List.append_nil] at h2
      rw [h2]
      simp [trainLoop]
  | cons c rest ih =>
      intro hlen k m
      have hc : c.length = logEvery := hlen c (by simp)
      have hrest : ∀ d ∈ rest, d.length = logEvery := fun d hd => hlen d (by simp [hd])
      rw [List.flatten_cons, List.append_assoc]
      rw [trainLoop_chunk epoch logEvery n k hL c hc (rest.flatten ++ tl) 0 m]
      have hzero : (0 : ℚ) + c.sum = c.sum := by ring
      rw [hzero]
      have := ih hrest (k + 1) (some (c.sum / (logEvery : ℚ)))
      rw [this]
      cases rest with
      | nil => simp
      | cons d ds =>
          have hy := List.getLast?_eq_getLast (d :: ds) (by simp)
          rw [List.getLast?_cons_cons, hy]

/-- C2 counterexample: with `log_every = 2` and per-batch losses
`[1, 2, 4]`, the arithmetic mean of the losses accumulated since the last
logging boundary is `4`, but `train_single_epoch` returns `3/2`, the
mean of the last complete logging interval. -/
theorem train_partial_interval_counterexample :
    (train_single_epoch 1 2 [1, 2, 4]).1 = some (3 / 2)
    ∧ (train_single_epoch 1 2 [1, 2, 4]).1 ≠ some 4 := by
  have h : (train_single_epoch 1 2 [1, 2, 4]).1 = some (3 / 2) := by
    simp only [train_single_epoch, List.length_cons, List.length_nil, trainLoop]
    norm_num
  refine ⟨h, ?_⟩
  rw [h]
  intro hcontra
  have : (3 / 2 : ℚ) = 4 := Option.some.inj hcontra
  norm_num at this

/-- C2 (amended): `train_single_epoch` returns the mean loss of the last
complete logging interval; batches after the last logging boundary do not
affect the returned value, and when fewer than `log_every` batches exist
no boundary is reached and the call fails instead of returning a mean. -/
theorem train_returns_last_complete_interval (epoch logEvery : ℕ) (hL : 1 ≤ logEvery)
    (chunks : List (List ℚ)) (hc : ∀ c ∈ chunks, c.length = logEvery)
    (tl : List ℚ) (htl : tl.length < logEvery)
    (lastC : List ℚ) (hlast : chunks.getLast? = some lastC) :
    (train_single_epoch epoch logEvery (chunks.flatten ++ tl)).1
      = some (lastC.sum / (logEvery : ℚ)) := by
  have h := trainLoop_chunks epoch logEvery (chunks.flatten ++ tl).length hL tl htl
      chunks hc 0 none
  rw [hlast] at h
  simpa [train_single_epoch] using h

theorem train_returns_last_complete_interval_witness :
    (train_single_epoch 1 2 (([[1, 2], [3, 5]] : List (List ℚ)).flatten ++ [7])).1
      = some (([3, 5] : List ℚ).sum / ((2 : ℕ) : ℚ)) :=
  train_returns_last_complete_interval 1 2 (by norm_num) [[1, 2], [3, 5]] (by decide)
    [7] (by norm_num) [3, 5] rfl

/-- C10: when the number of batches is strictly less than `log_every`,
`train_single_epoch` emits no log line and no telemetry point, and its
final return statement reads the never-assigned `mean_loss` variable, so
the call fails with an error instead of returning a mean loss (modelled as
the `none` first component). -/
theorem train_short_epoch_fails (epoch logEvery : ℕ) (losses : List ℚ)
    (h : losses.length < logEvery) :
    train_single_epoch epoch logEvery losses = (none, []) := by
  have h2 := trainLoop_no_boundary epoch logEvery losses.length losses [] 1 0 none (by
    intro j hj
    rw [Nat.mod_eq_of_lt (by omega)]
    omega)
  rw [List.append_nil] at h2
  rw [train_single_epoch, h2]
  simp [trainLoop]

theorem train_short_epoch_fails_witness :
    train_single_epoch 1 3 [1, 2] = (none, []) :=
  train_short_epoch_fails 1 3 [1, 2] (by norm_num)

/-- The global indices handed to the scalar-telemetry sink by the events of
one training epoch, in emission order. -/
def scalarIndices (evs : List TrainEvent) : List ℕ :=
  evs.filterMap fun ev => match ev with
    | TrainEvent.scalar idx _ => some idx
    | _ => none

theorem scalarIndices_cons_log (e i : ℕ) (q : ℚ) (evs : List TrainEvent) :
    scalarIndices (TrainEvent.logLine e i q :: evs) = scalarIndices evs := by
  simp [scalarIndices]

theorem scalarIndices_cons_scalar (idx : ℕ) (q : ℚ) (evs : List TrainEvent) :
    scalarIndices (TrainEvent.scalar idx q :: evs) = idx :: scalarIndices evs := by
  simp [scalarIndices]

theorem trainLoop_boundary_snd (epoch logEvery n i : ℕ) (r : ℚ) (m : Option ℚ)
    (x : ℚ) (rest : List ℚ) (h : i % logEvery = 0) :
    (trainLoop epoch logEvery n i r m (x :: rest)).2
      = TrainEvent.logLine epoch i ((r + x) / (logEvery : ℚ))
          :: TrainEvent.scalar ((epoch - 1) * n + i) ((r + x) / (logEvery : ℚ))
          :: (trainLoop epoch logEvery n (i + 1) 0
                (some ((r + x) / (logEvery : ℚ))) rest).2 := by
  rw [trainLoop_boundary epoch logEvery n i r m x rest h]

theorem trainLoop_scalar_indices (epoch logEvery n : ℕ) :
    ∀ (ls : List ℚ) (i : ℕ) (r : ℚ) (m : Option ℚ),
      List.Sorted (· < ·) (scalarIndices (trainLoop epoch logEvery n i r m ls).2)
      ∧ ∀ idx ∈ scalarIndices (trainLoop epoch logEvery n i r m ls).2,
          ∃ j, i ≤ j ∧ j < i + ls.length ∧ j % logEvery = 0
            ∧ idx = (epoch - 1) * n + j := by
  intro ls
  induction ls with
  | nil =>
      intro i r m
      refine ⟨by simp [trainLoop, scalarIndices], by simp [trainLoop, scalarIndices]⟩
  | cons x rest ih =>
      intro i r m
      by_cases h : i % logEvery = 0
      · obtain ⟨ihs, ihb⟩ := ih (i + 1) 0 (some ((r + x) / (logEvery : ℚ)))
        rw [trainLoop_boundary_snd epoch logEvery n i r m x rest h,
          scalarIndices_cons_log, scalarIndices_cons_scalar]
        constructor
        · refine List.sorted_cons.2 ⟨?_, ihs⟩
          intro b hb
          obtain ⟨j, h1, _, _, h4⟩ := ihb b hb
          omega
        · intro idx hidx
          rcases List.mem_cons.1 hidx with hidx | hidx
          · exact ⟨i, le_refl i, by simp, h, hidx⟩
          · obtain ⟨j, h1, h2, h3, h4⟩ := ihb idx hidx
            refine ⟨j, by omega, ?_, h3, h4⟩
            simp only [List.length_cons]
            omega
      · obtain ⟨ihs, ihb⟩ := ih (i + 1) (r + x) m
        rw [trainLoop_cons_not_boundary epoch logEvery n i r m x rest h]
        refine ⟨ihs, ?_⟩
        intro idx hidx
        obtain ⟨j, h1, h2, h3, h4⟩ := ihb idx hidx
        refine ⟨j, by omega, ?_, h3, h4⟩
        simp only [List.length_cons]
        omega

theorem train_single_epoch_scalar_indices (epoch logEvery : ℕ) (losses : List ℚ) :
    List.Sorted (· < ·) (scalarIndices (train_single_epoch epoch logEvery losses).2)
    ∧ ∀ idx ∈ scalarIndices (train_single_epoch epoch logEvery losses).2,
        ∃ j, 1 ≤ j ∧ j ≤ losses.length ∧ j % logEvery = 0
          ∧ idx = (epoch - 1) * losses.length + j := by
  obtain ⟨hs, hb⟩ := trainLoop_scalar_indices epoch logEvery losses.length losses 1 0 none
  refine ⟨hs, ?_⟩
  intro idx hidx
  obtain ⟨j, h1, h2, h3, h4⟩ := hb idx hidx
  exact ⟨j, h1, by omega, h3, h4⟩

/-- The scalar indices passed to the training-loss telemetry sink across a
whole run of `numEpochs` epochs, epoch `e` running its batches through
`train_single_epoch e logEvery (losses e)`. -/
def runTelemetryIndices (numEpochs logEvery : ℕ) (losses : ℕ → List ℚ) : List ℕ :=
  (List.range numEpochs).flatMap fun k =>
    scalarIndices (train_single_epoch (k + 1) logEvery (losses (k + 1))).2

/-- C8: with a fixed number `n` of batches per epoch, every index passed to
the training-loss telemetry sink equals `(epoch - 1) * n + batch_index`
with a 1-based in-epoch batch index at a logging boundary, and the indices
are strictly increasing across all logging events of the whole run, never
resetting at epoch boundaries. -/
theorem telemetry_index_monotonicity (numEpochs n logEvery : ℕ) (hL : 1 ≤ logEvery)
    (losses : ℕ → List ℚ) (hn : ∀ e, (losses e).length = n) :
    List.Sorted (· < ·) (runTelemetryIndices numEpochs logEvery losses)
    ∧ ∀ idx ∈ runTelemetryIndices numEpochs logEvery losses,
        ∃ e i, 1 ≤ e ∧ e ≤ numEpochs ∧ 1 ≤ i ∧ i ≤ n ∧ i % logEvery = 0
          ∧ idx = (e - 1) * n + i := by
  induction numEpochs with
  | zero =>
      refine ⟨by simp [runTelemetryIndices], by simp [runTelemetryIndices]⟩
  | succ E ih =>
      obtain ⟨ihs, ihb⟩ := ih
      have hsplit : runTelemetryIndices (E + 1) logEvery losses
          = runTelemetryIndices E logEvery losses
            ++ scalarIndices (train_single_epoch (E + 1) logEvery (losses (E + 1))).2 := by
        rw [runTelemetryIndices, List.range_succ, List.flatMap_append]
        rw [runTelemetryIndices]
        simp
      obtain ⟨hbs, hbb⟩ := train_single_epoch_scalar_indices (E + 1) logEvery (losses (E + 1))
      rw [hn (E + 1)] at hbb
      constructor
      · rw [hsplit]
        refine List.pairwise_append.2 ⟨ihs, hbs, ?_⟩
        intro a ha b hb
        obtain ⟨e, i, he1, he2, hi1, hi2, _, ha4⟩ := ihb a ha
        obtain ⟨j, hj1, hj2, _, hb4⟩ := hbb b hb
        obtain ⟨E2, rfl⟩ : ∃ E2, E = E2 + 1 := ⟨E - 1, by omega⟩
        have hmul : (e - 1) * n ≤ E2 * n := Nat.mul_le_mul_right n (by omega)
        have hEn : E2 * n + n = (E2 + 1) * n := by ring
        have hsimp : (E2 + 1 + 1 - 1) * n = (E2 + 1) * n := by norm_num
        rw [hsimp] at hb4
        omega
      · intro idx hidx
        rw [hsplit] at hidx
        rcases List.mem_append.1 hidx with hidx | hidx
        · obtain ⟨e, i, he1, he2, hi1, hi2, hmod, h4⟩ := ihb idx hidx
          exact ⟨e, i, he1, by omega, hi1, hi2, hmod, h4⟩
        · obtain ⟨j, hj1, hj2, hmod, h4⟩ := hbb idx hidx
          exact ⟨E + 1, j, by omega, le_refl _, hj1, hj2, hmod, by simpa using h4⟩

theorem telemetry_index_monotonicity_witness :
    List.Sorted (· < ·) (runTelemetryIndices 2 2 (fun _ => [1, 2, 3]))
    ∧ ∀ idx ∈ runTelemetryIndices 2 2 (fun _ => [1, 2, 3]),
        ∃ e i, 1 ≤ e ∧ e ≤ 2 ∧ 1 ≤ i ∧ i ≤ 3 ∧ i % 2 = 0 ∧ idx = (e - 1) * 3 + i :=
  telemetry_index_monotonicity 2 3 2 (by norm_num) (fun _ => [1, 2, 3]) (fun _ => rfl)

/-- Observable effects of one iteration of `main_training_loop`
(src/diffusion.py lines 211-245): log lines (their text), scalar telemetry
points, calls to `self.save(epoch, best)`, and the `self.scheduler.step()`
call. -/
inductive LoopEvent where
  | logLine (s : String)
  | scalar (series : String) (value : ℚ) (idx : ℕ)
  | saveCall (epoch : ℕ) (best : Bool)
  | schedStep
  deriving DecidableEq, Repr

/-- The state owned by `main_training_loop`: the epoch counter
`epoch_number` (starting at 1) and the best RMS seen so far
(`best_rms_metrics`, initially `None`). -/
structure LoopState where
  epoch : ℕ
  bestRms : Option ℚ
  deriving DecidableEq, Repr

/-- The EVALUATING phase (src/diffusion.py lines 216-234). `evalRes`
abstracts the fallible evaluation: on success it yields the mean metric
results of `evaluate_single_epoch` paired with their root-mean-square
`rms_metrics` (the downstream numeric reduction of lines 221-223);
`saveRes` abstracts the fallible weight write of `self.save`. On success
returns the updated state, the emitted events, and the `saved` flag; on
failure returns the error, the state at the failure point, and the events
emitted so far. -/
def evalPhase (evalEvery : ℕ) (evalRes : Except String (List (String × ℚ) × ℚ))
    (saveRes : ℕ → Bool → Except String Unit) (st : LoopState) :
    Except (String × LoopState × List LoopEvent) (LoopState × List LoopEvent × Bool) :=
  if st.epoch % evalEvery = 0 then
    let ev0 : List LoopEvent :=
      [LoopEvent.logLine "This is an evaluation epoch. Beginning evalution..."]
    match evalRes with
    | Except.error e => Except.error (e, st, ev0)
    | Except.ok res =>
        let means := res.1
        let rms := res.2
        let ev1 := ev0 ++
          [LoopEvent.logLine "Mean evaluation results follow:",
           LoopEvent.logLine (toString means),
           LoopEvent.logLine ("The RMS value is " ++ toString rms)]
          ++ means.map (fun kv => LoopEvent.scalar ("Evaluation/" ++ kv.1) kv.2 st.epoch)
          ++ [LoopEvent.scalar "Evaluation/All_Metrics_RMS" rms st.epoch]
        let best0 := match st.bestRms with
          | none => rms
          | some b => b
        if rms ≤ best0 then
          let ev2 := ev1 ++
            [LoopEvent.logLine "This is the new best epoch!!",
             LoopEvent.logLine "Saving new best model...",
             LoopEvent.saveCall st.epoch true]
          match saveRes st.epoch true with
          | Except.error e => Except.error (e, { st with bestRms := some rms }, ev2)
          | Except.ok _ => Except.ok ({ st with bestRms := some rms }, ev2, true)
        else
          Except.ok ({ st with bestRms := some best0 }, ev1, false)
  else
    Except.ok (st, [], false)

/-- The SAVING phase (src/diffusion.py lines 235-242): on a save epoch,
skip the plain epoch-numbered save when the epoch was already saved during
evaluation, logging that fact; otherwise perform the plain save. -/
def savePhase (saveEvery : ℕ) (saveRes : ℕ → Bool → Except String Unit)
    (st : LoopState) (saved : Bool) :
    Except (String × List LoopEvent) (List LoopEvent) :=
  if st.epoch % saveEvery = 0 then
    let ev0 : List LoopEvent := [LoopEvent.logLine "This is a save epoch."]
    if saved then
      Except.ok (ev0 ++
        [LoopEvent.logLine "However, the model has already been saved this epoch. Resuming training."])
    else
      let ev1 := ev0 ++ [LoopEvent.logLine "Saving model...", LoopEvent.saveCall st.epoch false]
      match saveRes st.epoch false with
      | Except.error e => Except.error (e, ev1)
      | Except.ok _ => Except.ok (ev1 ++ [LoopEvent.logLine "Resuming training."])
  else
    Except.ok []

/-- One iteration of the `while True` body of `main_training_loop`
(src/diffusion.py lines 211-245): log, train, evaluate when
`epoch % eval_every == 0`, save when `epoch % save_every == 0`, then
increment the epoch counter and step the learning-rate scheduler.
`trainRes` abstracts the fallible `train_single_epoch` call. On failure,
the error carries the state at the failure point and the events emitted
before it: the raise propagates immediately, so no later statement of the
body runs. -/
def mainLoopBody (evalEvery saveEvery : ℕ)
    (trainRes : Except String ℚ)
    (evalRes : Except String (List (String × ℚ) × ℚ))
    (saveRes : ℕ → Bool → Except String Unit)
    (st : LoopState) :
    Except (String × LoopState × List LoopEvent) (LoopState × List LoopEvent) :=
  let ev0 : List LoopEvent :=
    [LoopEvent.logLine ("Begin epoch " ++ toString st.epoch),
     LoopEvent.logLine "Beginning training..."]
  match trainRes with
  | Except.error e => Except.error (e, st, ev0)
  | Except.ok _ =>
    match evalPhase evalEvery evalRes saveRes st with
    | Except.error r => Except.error (r.1, r.2.1, ev0 ++ r.2.2)
    | Except.ok r1 =>
      match savePhase saveEvery saveRes r1.1 r1.2.2 with
      | Except.error r => Except.error (r.1, r1.1, ev0 ++ r1.2.1 ++ r.2)
      | Except.ok ev2 =>
          Except.ok ({ r1.1 with epoch := r1.1.epoch + 1 },
            ev0 ++ r1.2.1 ++ ev2 ++ [LoopEvent.schedStep])

theorem evalPhase_epoch_ok (evalEvery : ℕ) (evalRes : Except String (List (String × ℚ) × ℚ))
    (saveRes : ℕ → Bool → Except String Unit) (st : LoopState) :
    ∀ st1 ev saved, evalPhase evalEvery evalRes saveRes st = Except.ok (st1, ev, saved) →
      st1.epoch = st.epoch ∧ LoopEvent.schedStep ∉ ev := by
  intro st1 ev saved h
  rw [evalPhase] at h
  split at h
  · cases evalRes with
    | error e => simp at h
    | ok res =>
        simp only at h
        split at h
        · cases hs : saveRes st.epoch true with
          | error e => rw [hs] at h; simp at h
          | ok u =>
              rw [hs] at h
              simp only [Except.ok.injEq, Prod.mk.injEq] at h
              obtain ⟨h1, h2, _⟩ := h
              constructor
              · rw [← h1]
              · rw [← h2]
                simp [List.mem_append, List.mem_map]
        · simp only [Except.ok.injEq, Prod.mk.injEq] at h
          obtain ⟨h1, h2, _⟩ := h
          constructor
          · rw [← h1]
          · rw [← h2]
            simp [List.mem_append, List.mem_map]
  · simp only [Except.ok.injEq, Prod.mk.injEq] at h
    obtain ⟨h1, h2, _⟩ := h
    constructor
    · rw [← h1]
    · rw [← h2]
      simp

theorem evalPhase_epoch_error (evalEvery : ℕ) (evalRes : Except String (List (String × ℚ) × ℚ))
    (saveRes : ℕ → Bool → Except String Unit) (st : LoopState) :
    ∀ e stF ev, evalPhase evalEvery evalRes saveRes st = Except.error (e, stF, ev) →
      stF.epoch = st.epoch ∧ LoopEvent.schedStep ∉ ev := by
  intro e stF ev h
  rw [evalPhase] at h
  split at h
  · cases evalRes with
    | error e2 =>
        simp only [Except.error.injEq, Prod.mk.injEq] at h
        obtain ⟨_, h2, h3⟩ := h
        constructor
        · rw [← h2]
        · rw [← h3]
          simp
    | ok res =>
        simp only at h
        split at h
        · cases hs : saveRes st.epoch true with
          | error e2 =>
              rw [hs] at h
              simp only [Except.error.injEq, Prod.mk.injEq] at h
              obtain ⟨_, h2, h3⟩ := h
              constructor
              · rw [← h2]
              · rw [← h3]
                simp [List.mem_append, List.mem_map]
          | ok u => rw [hs] at h; simp at h
        · simp at h
  · simp at h

theorem savePhase_no_schedStep (saveEvery : ℕ) (saveRes : ℕ → Bool → Except String Unit)
    (st : LoopState) (saved : Bool) :
    (∀ ev, savePhase saveEvery saveRes st saved = Except.ok ev →
        LoopEvent.schedStep ∉ ev)
    ∧ (∀ e ev, savePhase saveEvery saveRes st saved = Except.error (e, ev) →
        LoopEvent.schedStep ∉ ev) := by
  constructor
  · intro ev h
    rw [savePhase] at h
    split at h
    · split at h
      · simp only [Except.ok.injEq] at h
        rw [← h]
        simp
      · cases hs : saveRes st.epoch false with
        | error e2 => rw [hs] at h; simp at h
        | ok u =>
            rw [hs] at h
            simp only [Except.ok.injEq] at h
            rw [← h]
            simp
    · simp only [Except.ok.injEq] at h
      rw [← h]
      simp
  · intro e ev h
    rw [savePhase] at h
    split at h
    · split at h
      · simp at h
      · cases hs : saveRes st.epoch false with
        | error e2 =>
            rw [hs] at h
            simp only [Except.error.injEq, Prod.mk.injEq] at h
            rw [← h.2]
            simp
        | ok u => rw [hs] at h; simp at h
    · simp at h

/-- C9: on a successfully completed epoch, `main_training_loop` advances
the learning-rate scheduler exactly once, as the last effect after the
save decision, and increments the epoch counter by one, regardless of
whether evaluation or saving occurred; and when a failure is raised during
the EVALUATING or SAVING phase (or during training), the body raises
immediately with the epoch counter unchanged and without stepping the
scheduler. -/
theorem scheduler_once_per_epoch (evalEvery saveEvery : ℕ)
    (trainRes : Except String ℚ)
    (evalRes : Except String (List (String × ℚ) × ℚ))
    (saveRes : ℕ → Bool → Except String Unit) (st : LoopState) :
    (∀ st2 evs,
        mainLoopBody evalEvery saveEvery trainRes evalRes saveRes st
          = Except.ok (st2, evs) →
        st2.epoch = st.epoch + 1
        ∧ evs.count LoopEvent.schedStep = 1
        ∧ evs.getLast? = some LoopEvent.schedStep)
    ∧ (∀ e stF evs,
        mainLoopBody evalEvery saveEvery trainRes evalRes saveRes st
          = Except.error (e, stF, evs) →
        stF.epoch = st.epoch ∧ LoopEvent.schedStep ∉ evs) := by
  have hev0 : LoopEvent.schedStep ∉
      [LoopEvent.logLine ("Begin epoch " ++ toString st.epoch),
       LoopEvent.logLine "Beginning training..."] := by simp
  constructor
  · intro st2 evs h
    rw [mainLoopBody.eq_def] at h
    cases trainRes with
    | error e => simp at h
    | ok l =>
        simp only at h
        cases hE : evalPhase evalEvery evalRes saveRes st with
        | error r => rw [hE] at h; simp at h
        | ok r1 =>
            rw [hE] at h
            simp only at h
            cases hS : savePhase saveEvery saveRes r1.1 r1.2.2 with
            | error r => rw [hS] at h; simp at h
            | ok ev2 =>
                rw [hS] at h
                simp only [Except.ok.injEq, Prod.mk.injEq] at h
                obtain ⟨h1, h2⟩ := h
                obtain ⟨hep, hev1⟩ := evalPhase_epoch_ok evalEvery evalRes saveRes st
                  r1.1 r1.2.1 r1.2.2 (by rw [hE])
                have hev2 := (savePhase_no_schedStep saveEvery saveRes r1.1 r1.2.2).1 ev2
                  (by rw [hS])
                refine ⟨?_, ?_, ?_⟩
                · rw [← h1]
                  simp [hep]
                · rw [← h2]
                  simp only [List.count_append]
                  rw [List.count_eq_zero.2 hev0, List.count_eq_zero.2 hev1,
                    List.count_eq_zero.2 hev2]
                  rfl
                · rw [← h2]
                  exact List.getLast?_concat _
  · intro e stF evs h
    rw [mainLoopBody.eq_def] at h
    cases trainRes with
    | error e2 =>
        simp only [Except.error.injEq, Prod.mk.injEq] at h
        obtain ⟨_, h2, h3⟩ := h
        refine ⟨by rw [← h2], by rw [← h3]; exact hev0⟩
    | ok l =>
        simp only at h
        cases hE : evalPhase evalEvery evalRes saveRes st with
        | error r =>
            rw [hE] at h
            simp only [Except.error.injEq, Prod.mk.injEq] at h
            obtain ⟨_, h2, h3⟩ := h
            obtain ⟨hep, hev1⟩ := evalPhase_epoch_error evalEvery evalRes saveRes st
              r.1 r.2.1 r.2.2 (by rw [hE])
            refine ⟨by rw [← h2]; exact hep, ?_⟩
            rw [← h3]
            simp only [List.mem_append]
            rintro (hc | hc)
            · exact hev0 hc
            · exact hev1 hc
        | ok r1 =>
            rw [hE] at h
            simp only at h
            cases hS : savePhase saveEvery saveRes r1.1 r1.2.2 with
            | error r =>
                rw [hS] at h
                simp only [Except.error.injEq, Prod.mk.injEq] at h
                obtain ⟨_, h2, h3⟩ := h
                obtain ⟨hep, hev1⟩ := evalPhase_epoch_ok evalEvery evalRes saveRes st
                  r1.1 r1.2.1 r1.2.2 (by rw [hE])
                have hev2 := (savePhase_no_schedStep saveEvery saveRes r1.1 r1.2.2).2 r.1 r.2
                  (by rw [hS])
                refine ⟨by rw [← h2]; exact hep, ?_⟩
                rw [← h3]
                simp only [List.mem_append]
                rintro ((hc | hc) | hc)
                · exact hev0 hc
                · exact hev1 hc
                · exact hev2 hc
            | ok ev2 => rw [hS] at h; simp at h

/-- Recognizer for weight-write calls among the loop events. -/
def isSaveCall : LoopEvent → Bool
  | LoopEvent.saveCall _ _ => true
  | _ => false

theorem countP_isSaveCall_map_scalar (means : List (String × ℚ)) (e : ℕ) :
    (means.map fun kv => LoopEvent.scalar ("Evaluation/" ++ kv.1) kv.2 e).countP isSaveCall
      = 0 := by
  rw [List.countP_map]
  apply List.countP_eq_zero.2
  intro a _
  simp [isSaveCall, Function.comp]

theorem saveCall_not_mem_map_scalar (means : List (String × ℚ)) (e e2 : ℕ) (b : Bool) :
    LoopEvent.saveCall e2 b ∉
      (means.map fun kv => LoopEvent.scalar ("Evaluation/" ++ kv.1) kv.2 e) := by
  simp [List.mem_map]

theorem evalPhase_improvement (evalEvery : ℕ) (means : List (String × ℚ)) (rms : ℚ)
    (saveRes : ℕ → Bool → Except String Unit) (st : LoopState)
    (heval : st.epoch % evalEvery = 0)
    (himpr : st.bestRms = none ∨ ∃ b, st.bestRms = some b ∧ rms ≤ b)
    (hsave : saveRes st.epoch true = Except.ok ()) :
    ∃ ev, evalPhase evalEvery (Except.ok (means, rms)) saveRes st
        = Except.ok ({ st with bestRms := some rms }, ev, true)
      ∧ ev.countP isSaveCall = 1
      ∧ LoopEvent.saveCall st.epoch true ∈ ev
      ∧ LoopEvent.saveCall st.epoch false ∉ ev := by
  have hcond : rms ≤ (match st.bestRms with | none => rms | some b => b) := by
    rcases himpr with hb | ⟨b, hb, hrb⟩
    · rw [hb]
    · rw [hb]
      exact hrb
  have hcompute : evalPhase evalEvery (Except.ok (means, rms)) saveRes st
      = Except.ok ({ st with bestRms := some rms },
        [LoopEvent.logLine "This is an evaluation epoch. Beginning evalution..."]
          ++ [LoopEvent.logLine "Mean evaluation results follow:",
              LoopEvent.logLine (toString means),
              LoopEvent.logLine ("The RMS value is " ++ toString rms)]
          ++ means.map (fun kv => LoopEvent.scalar ("Evaluation/" ++ kv.1) kv.2 st.epoch)
          ++ [LoopEvent.scalar "Evaluation/All_Metrics_RMS" rms st.epoch]
          ++ [LoopEvent.logLine "This is the new best epoch!!",
              LoopEvent.logLine "Saving new best model...",
              LoopEvent.saveCall st.epoch true], true) := by
    rw [evalPhase, if_pos heval]
    simp only
    rw [if_pos hcond, hsave]
  refine ⟨_, hcompute, ?_, ?_, ?_⟩
  · simp only [List.countP_append, countP_isSaveCall_map_scalar]
    simp [isSaveCall]
  · simp
  · simp only [List.mem_append, List.mem_cons, List.mem_singleton]
    push_neg
    refine ⟨⟨⟨by simp, ?_⟩, by simp⟩, by simp, by simp, by simp⟩
    exact saveCall_not_mem_map_scalar means st.epoch st.epoch false

theorem savePhase_saved_ok (saveEvery : ℕ) (saveRes : ℕ → Bool → Except String Unit)
    (st : LoopState) :
    ∃ ev, savePhase saveEvery saveRes st true = Except.ok ev
      ∧ ev.countP isSaveCall = 0
      ∧ (∀ e b, LoopEvent.saveCall e b ∉ ev)
      ∧ (st.epoch % saveEvery = 0 →
          LoopEvent.logLine
            "However, the model has already been saved this epoch. Resuming training." ∈ ev) := by
  rw [savePhase]
  by_cases hs : st.epoch % saveEvery = 0
  · rw [if_pos hs]
    exact ⟨_, rfl, by simp [isSaveCall], by simp, fun _ => by simp⟩
  · rw [if_neg hs]
    exact ⟨_, rfl, by simp, by simp, fun hc => absurd hc hs⟩

/-- C4: in the epoch control loop, an evaluation RMS equal to the current
best counts as an improvement (the comparison is `new_rms <= best_rms`),
and when no best exists yet the first evaluation's RMS unconditionally
becomes the initial best; on every such improvement the weights are
persisted under the best designation and no plain epoch-numbered save is
issued for that epoch. -/
theorem best_epoch_tie_policy (evalEvery saveEvery : ℕ) (l : ℚ)
    (means : List (String × ℚ)) (rms : ℚ)
    (saveRes : ℕ → Bool → Except String Unit) (st : LoopState)
    (heval : st.epoch % evalEvery = 0)
    (himpr : st.bestRms = none ∨ ∃ b, st.bestRms = some b ∧ rms ≤ b)
    (hsave : saveRes st.epoch true = Except.ok ()) :
    ∃ st2 evs,
      mainLoopBody evalEvery saveEvery (Except.ok l) (Except.ok (means, rms)) saveRes st
        = Except.ok (st2, evs)
      ∧ st2.bestRms = some rms
      ∧ st2.epoch = st.epoch + 1
      ∧ LoopEvent.saveCall st.epoch true ∈ evs
      ∧ LoopEvent.saveCall st.epoch false ∉ evs := by
  obtain ⟨ev, hE, _, hmem, hnot⟩ :=
    evalPhase_improvement evalEvery means rms saveRes st heval himpr hsave
  obtain ⟨ev2, hS, _, hnot2, _⟩ := savePhase_saved_ok saveEvery saveRes
    { st with bestRms := some rms }
  have hrun : mainLoopBody evalEvery saveEvery (Except.ok l) (Except.ok (means, rms)) saveRes st
      = Except.ok ({ epoch := st.epoch + 1, bestRms := some rms },
        [LoopEvent.logLine ("Begin epoch " ++ toString st.epoch),
         LoopEvent.logLine "Beginning training..."]
          ++ ev ++ ev2 ++ [LoopEvent.schedStep]) := by
    rw [mainLoopBody.eq_def]
    simp only
    rw [hE]
    simp only
    rw [hS]
  refine ⟨_, _, hrun, rfl, rfl, ?_, ?_⟩
  · simp only [List.mem_append]
    left; left; right
    exact hmem
  · simp only [List.mem_append, List.mem_cons, List.mem_singleton]
    push_neg
    exact ⟨⟨⟨by simp, hnot⟩, hnot2 st.epoch false⟩, by simp⟩

theorem best_epoch_tie_policy_witness :
    ∃ st2 evs,
      mainLoopBody 1 1 (Except.ok 0) (Except.ok ([], 1 / 2))
          (fun _ _ => Except.ok ()) ⟨4, some (1 / 2)⟩
        = Except.ok (st2, evs)
      ∧ st2.bestRms = some (1 / 2)
      ∧ st2.epoch = (⟨4, some (1 / 2)⟩ : LoopState).epoch + 1
      ∧ LoopEvent.saveCall (⟨4, some (1 / 2)⟩ : LoopState).epoch true ∈ evs
      ∧ LoopEvent.saveCall (⟨4, some (1 / 2)⟩ : LoopState).epoch false ∉ evs :=
  best_epoch_tie_policy 1 1 0 [] (1 / 2) (fun _ _ => Except.ok ()) ⟨4, some (1 / 2)⟩
    (by norm_num) (Or.inr ⟨1 / 2, rfl, le_refl _⟩) rfl

/-- C5: on an epoch divisible by both `eval_every` and `save_every` whose
evaluation produced a best-model save, the plain epoch-numbered save is
skipped: exactly one weight-write call is issued that epoch, carrying the
best designation, and the skip is recorded by the emitted log line. -/
theorem no_double_save (evalEvery saveEvery : ℕ) (l : ℚ)
    (means : List (String × ℚ)) (rms : ℚ)
    (saveRes : ℕ → Bool → Except String Unit) (st : LoopState)
    (heval : st.epoch % evalEvery = 0)
    (hsaveE : st.epoch % saveEvery = 0)
    (himpr : st.bestRms = none ∨ ∃ b, st.bestRms = some b ∧ rms ≤ b)
    (hsave : saveRes st.epoch true = Except.ok ()) :
    ∃ st2 evs,
      mainLoopBody evalEvery saveEvery (Except.ok l) (Except.ok (means, rms)) saveRes st
        = Except.ok (st2, evs)
      ∧ evs.countP isSaveCall = 1
      ∧ LoopEvent.saveCall st.epoch true ∈ evs
      ∧ LoopEvent.logLine
          "However, the model has already been saved this epoch. Resuming training." ∈ evs := by
  obtain ⟨ev, hE, hcount, hmem, _⟩ :=
    evalPhase_improvement evalEvery means rms saveRes st heval himpr hsave
  obtain ⟨ev2, hS, hcount2, _, hlog⟩ := savePhase_saved_ok saveEvery saveRes
    { st with bestRms := some rms }
  have hrun : mainLoopBody evalEvery saveEvery (Except.ok l) (Except.ok (means, rms)) saveRes st
      = Except.ok ({ epoch := st.epoch + 1, bestRms := some rms },
        [LoopEvent.logLine ("Begin epoch " ++ toString st.epoch),
         LoopEvent.logLine "Beginning training..."]
          ++ ev ++ ev2 ++ [LoopEvent.schedStep]) := by
    rw [mainLoopBody.eq_def]
    simp only
    rw [hE]
    simp only
    rw [hS]
  refine ⟨_, _, hrun, ?_, ?_, ?_⟩
  · simp only [List.countP_append, hcount, hcount2]
    simp [isSaveCall]
  · simp only [List.mem_append]
    left; left; right
    exact hmem
  · simp only [List.mem_append]
    left; right
    exact hlog hsaveE

theorem no_double_save_witness :
    ∃ st2 evs,
      mainLoopBody 2 2 (Except.ok 0) (Except.ok ([], 1 / 2))
          (fun _ _ => Except.ok ()) ⟨6, none⟩
        = Except.ok (st2, evs)
      ∧ evs.countP isSaveCall = 1
      ∧ LoopEvent.saveCall (⟨6, none⟩ : LoopState).epoch true ∈ evs
      ∧ LoopEvent.logLine
          "However, the model has already been saved this epoch. Resuming training." ∈ evs :=
  no_double_save 2 2 0 [] (1 / 2) (fun _ _ => Except.ok ()) ⟨6, none⟩
    (by norm_num) (by norm_num) (Or.inl rfl) rfl

end Palette
